import Mathlib

/-!
# Crossword CSP solver (`generate.py`): shallow embedding

This file embeds the CSP solving engine of
`week 3 - Optimisation/crossword/generate.py` — domain initialisation,
node consistency, the AC-3 propagation loop (`revise`, `arcs_helper`,
`ac3`), the search heuristics (`select_unassigned_variable`,
`order_domain_values`), the consistency checks (`assignment_complete`,
`consistent`) and the backtracking search (`backtrack`, `solve`) — and
proves or refutes the specification's claims about it.

Modelling conventions:
* Python `set`/`dict` iteration order is unspecified; the embedding fixes
  the insertion order of `crossword.variables` (a list) and represents
  each domain as a duplicate-free list in a fixed order.
* Python exceptions (`TypeError` from `assignment_complete(None)`,
  `IndexError`/`NameError` from the heuristics on empty input) are
  modelled as `Except.error ()` / `Option.none` at exactly the program
  points where CPython would raise.
* Loops that are not structurally recursive (`ac3`'s work queue, the
  recursion of `backtrack`) take a fuel parameter; exhausted fuel is a
  distinguished outcome (`none`) that never occurs in the concrete runs
  below and is excluded by hypothesis in the general theorems.
-/

namespace Crossgen

/-- A crossword slot: start cell, direction and required word length.
Equality is componentwise, matching `Variable.__eq__`/`__hash__`. -/
structure Variable where
  row : Nat
  col : Nat
  down : Bool
  length : Nat
deriving DecidableEq, Repr

/-- A candidate word, as its list of characters. -/
abbrev Word := List Char

/-- A partial assignment: the Python `dict` mapping variables to words,
kept in insertion order. -/
abbrev Assn := List (Variable × Word)

/-- The Domain Store: each variable's current list of candidate words. -/
abbrev Domains := Variable → List Word

/-- Modelled from the spec: the Puzzle Model collaborator (the repo's
`crossword.py`, not part of the solving engine's sources) exposes the
set of variables, the word list, and for each ordered pair of distinct
crossing variables an overlap index pair `(i, j)` meaning the `i`-th
letter of the first word must equal the `j`-th letter of the second;
non-crossing pairs have no entry. -/
structure Crossword where
  vars : List Variable
  overlaps : Variable → Variable → Option (Nat × Nat)
  words : List Word

/-- Modelled from the spec: `neighbors(v)` returns the variables sharing
an overlap with `v` (distinct from `v`). -/
def neighbors (cw : Crossword) (v : Variable) : List Variable :=
  cw.vars.filter (fun u => u ≠ v ∧ (cw.overlaps v u).isSome)

/-- `assignment[k]` lookup on the association-list model of the dict. -/
def lookupA : Assn → Variable → Option Word
  | [], _ => none
  | (k, w) :: t, x => if k = x then some w else lookupA t x

/-- `assignment[k] = v`: overwrite in place if the key is present,
otherwise append (Python dict update semantics). -/
def insertA : Assn → Variable → Word → Assn
  | [], k, w => [(k, w)]
  | (k', w') :: t, k, w =>
    if k' = k then (k, w) :: t else (k', w') :: insertA t k w

/-- `CrosswordCreator.__init__`: every variable starts with a copy of the
full word list. -/
def initialDomains (cw : Crossword) : Domains :=
  fun _ => cw.words

/-- `enforce_node_consistency`: keep, per variable, only the words whose
length equals the variable's length. -/
def enforce_node_consistency (cw : Crossword) (d : Domains) : Domains :=
  fun v => if v ∈ cw.vars then (d v).filter (fun w => w.length = v.length) else d v

/-- `revise(x, y)`: drop from `x`'s domain every word with no partner in
`y`'s domain agreeing at the overlap indices; report whether anything was
dropped.  The source unpacks `self.crossword.overlaps[x, y]` directly —
a `None` overlap would raise, but `revise` is only ever called on
neighbor pairs, where the overlap exists; the `none` branch is inert. -/
def revise (cw : Crossword) (x y : Variable) (d : Domains) : Bool × Domains :=
  match cw.overlaps x y with
  | none => (false, d)
  | some (i, j) =>
    let keep := (d x).filter (fun xv => (d y).any (fun yv => xv.getD i '?' = yv.getD j '?'))
    let changed := (d x).any (fun xv => !(d y).any (fun yv => xv.getD i '?' = yv.getD j '?'))
    (changed, fun v => if v = x then keep else d v)

/-- `arcs_helper`: all arcs `(var, neighbour)` of the constraint graph,
in variable order. -/
def arcs_helper (cw : Crossword) : List (Variable × Variable) :=
  (cw.vars.map (fun v => (neighbors cw v).map (fun n => (v, n)))).flatten

/-- The re-enqueue step of `ac3`'s loop body: for every neighbour `n` of
`x` other than `y`, append the arc `(x, n)` to the queue unless already
present.  (Note the source appends `(x, n)`, the arc *out of* `x`.) -/
def enqueueNeighbors (cw : Crossword) (x y : Variable)
    (q : List (Variable × Variable)) : List (Variable × Variable) :=
  ((neighbors cw x).filter (fun n => n ≠ y)).foldl
    (fun q n => if (x, n) ∈ q then q else q ++ [(x, n)]) q

/-- The `while arcs:` loop of `ac3`: pop the front arc, revise it; on an
emptied domain return `false` at once; on a change re-enqueue via
`enqueueNeighbors`.  `none` = fuel ran out (no Python counterpart). -/
def ac3go (cw : Crossword) : Nat → List (Variable × Variable) → Domains →
    Option (Bool × Domains)
  | 0, _, _ => none
  | _ + 1, [], d => some (true, d)
  | fuel + 1, (x, y) :: rest, d =>
    let r := revise cw x y d
    if r.1 then
      if (r.2 x).isEmpty then some (false, r.2)
      else ac3go cw fuel (enqueueNeighbors cw x y rest) r.2
    else ac3go cw fuel rest d

/-- `ac3(arcs)`: `if not arcs:` treats both `None` and the empty list as
"seed from the full arc set". -/
def ac3 (cw : Crossword) (fuel : Nat) (arcs : Option (List (Variable × Variable)))
    (d : Domains) : Option (Bool × Domains) :=
  let q := match arcs with
    | none => arcs_helper cw
    | some l => if l.isEmpty then arcs_helper cw else l
  ac3go cw fuel q d

/-- `assignment_complete`: every variable of the puzzle has a value. -/
def assignment_complete (cw : Crossword) (a : Assn) : Bool :=
  cw.vars.all (fun v => (lookupA a v).isSome)

/-- `consistent`: assigned words pairwise distinct (`len(set(values)) ==
len(assignment)`), every word of its variable's length, and every
assigned overlapping pair agreeing at the overlap indices. -/
def consistent (cw : Crossword) (a : Assn) : Bool :=
  decide (a.map Prod.snd).Nodup
  && a.all (fun p => p.1.length = p.2.length)
  && a.all (fun p => a.all (fun q =>
      p.1 = q.1 ||
      match cw.overlaps p.1 q.1 with
      | none => true
      | some (i, j) => p.2.getD i '?' = q.2.getD j '?'))

/-- One word conflicts with another at overlap `(i, j)`:
`x_val[i] != y_val[j]` in `order_domain_values`'s counting loops. -/
def conflictsAt (i j : Nat) (xv yv : Word) : Bool :=
  xv.getD i '?' ≠ yv.getD j '?'

/-- The count accumulated for one candidate word by
`order_domain_values`'s nested loops: over every *unassigned* neighbour
of `var`, the number of its domain values conflicting at the overlap.
The `none` overlap branch is inert (neighbours always have one). -/
def elimCount (cw : Crossword) (var : Variable) (a : Assn) (d : Domains)
    (xv : Word) : Nat :=
  ((neighbors cw var).filter (fun n => (lookupA a n).isNone)).foldl
    (fun acc n =>
      match cw.overlaps var n with
      | none => acc
      | some (i, j) => acc + ((d n).filter (fun yv => conflictsAt i j xv yv)).length) 0

/-- `order_domain_values(var, assignment)`: the domain of `var` sorted
ascending by `elimCount`.  Python's `sorted` is a stable sort by key;
`List.insertionSort` with the key's `≤` is the same stable sort.  When
`var` is already assigned the source never binds the counts dict and the
final `sorted` raises `NameError`; modelled as `none`. -/
def order_domain_values (cw : Crossword) (var : Variable) (a : Assn)
    (d : Domains) : Option (List Word) :=
  if (lookupA a var).isNone then
    some ((d var).insertionSort
      (fun w1 w2 => elimCount cw var a d w1 ≤ elimCount cw var a d w2))
  else none

/-- `select_unassigned_variable(assignment)`: stably sort the unassigned
variables by domain size, keep the ones tied at the minimum, then sort
those by neighbour count — ascending, as `sorted` with no `reverse` —
and return the first.  With no unassigned variable the source raises
`IndexError`; modelled as `none` (as is the dead `else: return mrv[0]`
branch, which would also raise). -/
def select_unassigned_variable (cw : Crossword) (a : Assn) (d : Domains) :
    Option Variable :=
  let unassigned := cw.vars.filter (fun v => (lookupA a v).isNone)
  let mrvSorted := unassigned.insertionSort (fun u v => (d u).length ≤ (d v).length)
  match mrvSorted with
  | [] => none
  | m0 :: _ =>
    let mrv := mrvSorted.filter (fun v => (d v).length = (d m0).length)
    match mrv.insertionSort (fun u v => (neighbors cw u).length ≤ (neighbors cw v).length) with
    | [] => none
    | h :: _ => some h

/-- The `for val in self.order_domain_values(...)` loop of `backtrack`.
`recur` is the recursive `self.backtrack` call at one fuel less.  The
loop keeps two assignment values, mirroring the source's aliasing: `a`
is the shared dict `assignment` (mutated in place, never undone) and
`copyA` the entry-time `assignment_copy` that receives each tentative
value and is the one tested by `consistent`.  A recursive result of
`None` reaches `self.assignment_complete(result)`, which iterates
`self.domains` and evaluates `var not in None` — a `TypeError` unless
the puzzle has no variables; modelled as `Except.error ()`.  Results are
pairs (returned value, final state of the shared dict). -/
def goLoop (cw : Crossword) (recur : Assn → Except Unit (Option Assn × Assn))
    (var : Variable) : Assn → Assn → List Word → Except Unit (Option Assn × Assn)
  | a, _, [] => .ok (none, a)
  | a, copyA, val :: rest =>
    let copyA' := insertA copyA var val
    if consistent cw copyA' then
      match recur (insertA a var val) with
      | .error _ => .error ()
      | .ok (none, a2) =>
        if cw.vars.isEmpty then .ok (none, a2) else .error ()
      | .ok (some m, a2) =>
        if assignment_complete cw m then .ok (some m, a2)
        else goLoop cw recur var a2 copyA' rest
    else goLoop cw recur var a copyA' rest

/-- `backtrack(assignment)`: return the assignment once complete (the
entry copy `assignment_copy = copy.deepcopy(assignment)` is the pure
value itself), otherwise select a variable, order its values and run the
candidate loop.  `select`/`order` returning `none` models the
`IndexError`/`NameError` exits. -/
def backtrackF (cw : Crossword) (d : Domains) : Nat → Assn →
    Except Unit (Option Assn × Assn)
  | 0, _ => .error ()
  | fuel + 1, a =>
    if assignment_complete cw a then .ok (some a, a)
    else
      match select_unassigned_variable cw a d with
      | none => .error ()
      | some var =>
        match order_domain_values cw var a d with
        | none => .error ()
        | some vals => goLoop cw (backtrackF cw d fuel) var a a vals

/-- `solve()`: node consistency, then `ac3()` with its boolean result
discarded (only the mutated domains flow on), then `backtrack(dict())`,
whose returned value (not the final dict state) is the result.  The
outer `Option` is AC-3 fuel exhaustion; the `Except` layer carries the
Python exceptions of `backtrack`. -/
def solve (cw : Crossword) (bfuel afuel : Nat) :
    Option (Except Unit (Option Assn)) :=
  (ac3 cw afuel none (enforce_node_consistency cw (initialDomains cw))).map
    (fun p => (backtrackF cw p.2 bfuel []).map (fun r => r.1))

/-- Invocation counter mirror of `goLoop`: how many `backtrack` calls the
candidate loop makes (the loop aborts on an error, so a crashed
recursive call contributes its own count and nothing after it). -/
def goLoopCalls (cw : Crossword) (recur : Assn → Except Unit (Option Assn × Assn))
    (recurCalls : Assn → Nat) (var : Variable) : Assn → Assn → List Word → Nat
  | _, _, [] => 0
  | a, copyA, val :: rest =>
    let copyA' := insertA copyA var val
    if consistent cw copyA' then
      recurCalls (insertA a var val) +
      match recur (insertA a var val) with
      | .error _ => 0
      | .ok (none, _) => 0
      | .ok (some m, a2) =>
        if assignment_complete cw m then 0
        else goLoopCalls cw recur recurCalls var a2 copyA' rest
    else goLoopCalls cw recur recurCalls var a copyA' rest

/-- Invocation counter mirror of `backtrackF`: the number of `backtrack`
invocations performed, this call included. -/
def backtrackCalls (cw : Crossword) (d : Domains) : Nat → Assn → Nat
  | 0, _ => 1
  | fuel + 1, a =>
    1 +
    if assignment_complete cw a then 0
    else
      match select_unassigned_variable cw a d with
      | none => 0
      | some var =>
        match order_domain_values cw var a d with
        | none => 0
        | some vals =>
          goLoopCalls cw (backtrackF cw d fuel) (backtrackCalls cw d fuel) var a a vals

/-- Invocation counter mirror of `solve`: how many times `backtrack` is
entered after the AC-3 phase (the source calls it unconditionally). -/
def solveCalls (cw : Crossword) (bfuel afuel : Nat) : Option Nat :=
  (ac3 cw afuel none (enforce_node_consistency cw (initialDomains cw))).map
    (fun p => backtrackCalls cw p.2 bfuel [])

/-! ## Concrete puzzle instances used by the claim theorems -/

/-- Single slot of length 1 at the origin. -/
def vW : Variable := ⟨0, 0, false, 1⟩

/-- One-variable puzzle with word list `["a"]`; solvable. -/
def cwW : Crossword := ⟨[vW], fun _ _ => none, [['a']]⟩

/-- Across slot of length 1. -/
def xC2 : Variable := ⟨0, 0, false, 1⟩

/-- Down slot of length 1 crossing `xC2`. -/
def yC2 : Variable := ⟨0, 0, true, 1⟩

/-- Two crossing length-1 slots, single word `"a"`: the only pairing
repeats the word, so no solution exists; the first branch dead-ends. -/
def cwC2 : Crossword :=
  ⟨[xC2, yC2],
   fun u v => if (u = xC2 ∧ v = yC2) ∨ (u = yC2 ∧ v = xC2) then some (0, 0) else none,
   [['a']]⟩

/-- Length-3 slot. -/
def xC3 : Variable := ⟨0, 0, false, 3⟩

/-- Length-2 slot crossing `xC3` at their first letters. -/
def yC3 : Variable := ⟨0, 0, true, 2⟩

/-- Words `"cat"`/`"do"`: node consistency leaves `{cat}` and `{do}`,
and the first-letter overlap `c ≠ d` empties a domain during AC-3. -/
def cwC3 : Crossword :=
  ⟨[xC3, yC3],
   fun u v => if (u = xC3 ∧ v = yC3) ∨ (u = yC3 ∧ v = xC3) then some (0, 0) else none,
   [['c', 'a', 't'], ['d', 'o']]⟩

/-- Slot `x` of the three-slot puzzle. -/
def xC4 : Variable := ⟨0, 0, false, 2⟩

/-- Slot `y`, crossing `xC4` at `x[0] = y[0]`. -/
def yC4 : Variable := ⟨0, 0, true, 2⟩

/-- Slot `z`, crossing `xC4` at `x[1] = z[0]`. -/
def zC4 : Variable := ⟨0, 1, true, 2⟩

/-- Three slots, words `"aa" "ab" "ba"`.  Satisfiable (x=ab, y=aa,
z=ba), but the heuristics steer the search into the branch y=aa, z=ab
first, where no word fits `x` — a dead end that must backtrack. -/
def cwC4 : Crossword :=
  ⟨[xC4, yC4, zC4],
   fun u v =>
     if (u = xC4 ∧ v = yC4) ∨ (u = yC4 ∧ v = xC4) then some (0, 0)
     else if u = xC4 ∧ v = zC4 then some (1, 0)
     else if u = zC4 ∧ v = xC4 then some (0, 1)
     else none,
   [['a', 'a'], ['a', 'b'], ['b', 'a']]⟩

/-- Middle slot of the path `z — x — y`. -/
def xC5 : Variable := ⟨0, 0, false, 2⟩

/-- One end of the path, crossing `xC5` at `x[1] = y[0]`. -/
def yC5 : Variable := ⟨0, 1, true, 2⟩

/-- Other end, crossing `xC5` at `z[0] = x[0]`. -/
def zC5 : Variable := ⟨0, 0, true, 2⟩

/-- A path `z — x — y` of three slots (no `z — y` constraint). -/
def cwC5 : Crossword :=
  ⟨[zC5, xC5, yC5],
   fun u v =>
     if (u = zC5 ∧ v = xC5) ∨ (u = xC5 ∧ v = zC5) then some (0, 0)
     else if u = xC5 ∧ v = yC5 then some (1, 0)
     else if u = yC5 ∧ v = xC5 then some (0, 1)
     else none,
   [['a', 'b'], ['c', 'b'], ['a', 'a'], ['c', 'c'], ['a', 'x']]⟩

/-- Domain store on `cwC5`: `z ↦ {ab, cb}`, `x ↦ {aa, cc}`, `y ↦ {ax}`.
Processing the full arc queue first establishes `(z, x)`, then shrinks
`x` on arc `(x, y)`; the shrink is never propagated back to `z`,
stranding `cb` without support. -/
def dC6 : Domains := fun v =>
  if v = zC5 then [['a', 'b'], ['c', 'b']]
  else if v = xC5 then [['a', 'a'], ['c', 'c']]
  else if v = yC5 then [['a', 'x']]
  else []

/-- Slot with two neighbours. -/
def aC7 : Variable := ⟨0, 0, false, 1⟩

/-- Slot with one neighbour, MRV-tied with `aC7`. -/
def bC7 : Variable := ⟨0, 1, false, 1⟩

/-- Third slot, larger domain. -/
def cC7 : Variable := ⟨0, 2, false, 1⟩

/-- `a` crosses both `b` and `c`; `b` and `c` do not cross. -/
def cwC7 : Crossword :=
  ⟨[aC7, bC7, cC7],
   fun u v =>
     if (u = aC7 ∧ (v = bC7 ∨ v = cC7)) ∨ ((u = bC7 ∨ u = cC7) ∧ v = aC7)
     then some (0, 0) else none,
   [['a'], ['b'], ['c'], ['d']]⟩

/-- Domain store making `aC7` and `bC7` MRV-tied (one word each) while
`cC7` keeps two. -/
def dC7 : Domains := fun v =>
  if v = aC7 then [['a']]
  else if v = bC7 then [['b']]
  else if v = cC7 then [['c'], ['d']]
  else []

/-- First slot of the two-slot LCV example. -/
def pC9 : Variable := ⟨0, 0, false, 1⟩

/-- Second slot, crossing `pC9`. -/
def qC9 : Variable := ⟨0, 0, true, 1⟩

/-- Two crossing length-1 slots for exercising `order_domain_values`. -/
def cwC9 : Crossword :=
  ⟨[pC9, qC9],
   fun u v => if (u = pC9 ∧ v = qC9) ∨ (u = qC9 ∧ v = pC9) then some (0, 0) else none,
   [['a'], ['b']]⟩

/-- Domain store for the LCV example: `p ↦ {a, b}`, `q ↦ {a}`. -/
def dC9 : Domains := fun v =>
  if v = pC9 then [['a'], ['b']]
  else if v = qC9 then [['a']]
  else []

/-! ## General lemmas about the embedded operations -/

/-- Writing the same key twice keeps only the second write. -/
theorem insertA_insertA (a : Assn) (k : Variable) (v w : Word) :
    insertA (insertA a k v) k w = insertA a k w := by
  induction a with
  | nil => simp [insertA]
  | cons p t ih =>
    obtain ⟨k', v'⟩ := p
    by_cases h : k' = k
    · simp [insertA, h]
    · simp [insertA, h, ih]

/-- A successful lookup exhibits a stored pair. -/
theorem lookupA_mem {a : Assn} {x : Variable} {w : Word}
    (h : lookupA a x = some w) : (x, w) ∈ a := by
  induction a with
  | nil => simp [lookupA] at h
  | cons p t ih =>
    obtain ⟨k, v⟩ := p
    by_cases hk : k = x
    · subst hk
      simp [lookupA] at h
      simp [h]
    · simp [lookupA, hk] at h
      exact List.mem_cons_of_mem _ (ih h)

/-- `revise` never adds a word to any domain. -/
theorem revise_mem {cw : Crossword} {x y v : Variable} {w : Word} {d : Domains}
    (h : w ∈ (revise cw x y d).2 v) : w ∈ d v := by
  unfold revise at h
  cases hov : cw.overlaps x y with
  | none => rw [hov] at h; exact h
  | some p =>
    obtain ⟨i, j⟩ := p
    rw [hov] at h
    simp only at h
    by_cases hv : v = x
    · rw [if_pos hv] at h
      exact hv ▸ List.mem_of_mem_filter h
    · rwa [if_neg hv] at h

/-- A completed `ac3` loop never adds a word to any domain. -/
theorem ac3go_mem {cw : Crossword} :
    ∀ {fuel : Nat} {q : List (Variable × Variable)} {d : Domains} {b : Bool}
      {d' : Domains} {v : Variable} {w : Word},
      ac3go cw fuel q d = some (b, d') → w ∈ d' v → w ∈ d v := by
  intro fuel
  induction fuel with
  | zero => intro q d b d' v w h; simp [ac3go] at h
  | succ fuel ih =>
    intro q d b d' v w h hw
    match q with
    | [] =>
      simp [ac3go] at h
      rw [h.2]
      exact hw
    | (x, y) :: rest =>
      rw [ac3go] at h
      by_cases hrev : (revise cw x y d).1
      · rw [if_pos hrev] at h
        by_cases hemp : ((revise cw x y d).2 x).isEmpty
        · rw [if_pos hemp] at h
          injection h with h'
          injection h' with _ h2
          exact revise_mem (h2 ▸ hw)
        · rw [if_neg hemp] at h
          exact revise_mem (ih h hw)
      · rw [if_neg hrev] at h
        exact ih h hw

/-- Any assignment returned (as opposed to `None` or an exception) by the
candidate loop is complete, provided the recursive call only returns
complete assignments: the only two return points for an assignment are
guarded by `assignment_complete`. -/
theorem goLoop_some_complete (cw : Crossword)
    (recur : Assn → Except Unit (Option Assn × Assn)) (var : Variable) :
    ∀ (vals : List Word) (a copyA m s : Assn),
      goLoop cw recur var a copyA vals = .ok (some m, s) →
      assignment_complete cw m = true := by
  intro vals
  induction vals with
  | nil => intro a copyA m s h; simp [goLoop] at h
  | cons val rest ih =>
    intro a copyA m s h
    simp only [goLoop] at h
    by_cases hc : consistent cw (insertA copyA var val)
    · rw [if_pos hc] at h
      cases hr : recur (insertA a var val) with
      | error e => rw [hr] at h; exact absurd h (by simp)
      | ok p =>
        obtain ⟨r, a2⟩ := p
        rw [hr] at h
        cases r with
        | none =>
          dsimp only at h
          by_cases hE : cw.vars.isEmpty
          · rw [if_pos hE] at h; exact absurd h (by simp)
          · rw [if_neg hE] at h; exact absurd h (by simp)
        | some m' =>
          dsimp only at h
          by_cases hm : assignment_complete cw m'
          · rw [if_pos hm] at h
            obtain ⟨hm', _⟩ : some m' = some m ∧ a2 = s := by
              simpa using h
            injection hm' with hm'
            exact hm' ▸ hm
          · rw [if_neg hm] at h
            exact ih a2 (insertA copyA var val) m s h
    · rw [if_neg hc] at h
      exact ih a (insertA copyA var val) m s h

/-- Any assignment returned by `backtrack` is complete. -/
theorem backtrackF_some_complete (cw : Crossword) (d : Domains) :
    ∀ (fuel : Nat) (a m s : Assn),
      backtrackF cw d fuel a = .ok (some m, s) →
      assignment_complete cw m = true := by
  intro fuel
  induction fuel with
  | zero => intro a m s h; simp [backtrackF] at h
  | succ fuel ih =>
    intro a m s h
    simp only [backtrackF] at h
    by_cases hcomp : assignment_complete cw a
    · rw [if_pos hcomp] at h
      obtain ⟨hm, _⟩ : some a = some m ∧ a = s := by simpa using h
      injection hm with hm
      exact hm ▸ hcomp
    · rw [if_neg hcomp] at h
      cases hsel : select_unassigned_variable cw a d with
      | none => rw [hsel] at h; exact absurd h (by simp)
      | some var =>
        rw [hsel] at h
        dsimp only at h
        cases hord : order_domain_values cw var a d with
        | none => rw [hord] at h; exact absurd h (by simp)
        | some vals =>
          rw [hord] at h
          dsimp only at h
          exact goLoop_some_complete cw _ var vals a a m s h

/-- Any assignment returned by the candidate loop passed the `consistent`
check: the loop starts with `copyA` and `a` agreeing on every tentative
extension, the check runs on `copyA`'s extension, the recursion on `a`'s,
and the continuation after a non-complete recursive result is
unreachable (recursive results are always complete). -/
theorem goLoop_some_consistent (cw : Crossword)
    (recur : Assn → Except Unit (Option Assn × Assn)) (var : Variable)
    (hrecC : ∀ a m s, recur a = .ok (some m, s) → assignment_complete cw m = true)
    (hrecS : ∀ a m s, consistent cw a = true → recur a = .ok (some m, s) →
      consistent cw m = true) :
    ∀ (vals : List Word) (a copyA m s : Assn),
      (∀ val, insertA copyA var val = insertA a var val) →
      goLoop cw recur var a copyA vals = .ok (some m, s) →
      consistent cw m = true := by
  intro vals
  induction vals with
  | nil => intro a copyA m s _ h; simp [goLoop] at h
  | cons val rest ih =>
    intro a copyA m s hlink h
    simp only [goLoop] at h
    by_cases hc : consistent cw (insertA copyA var val)
    · rw [if_pos hc] at h
      have hc' : consistent cw (insertA a var val) = true := by
        rw [← hlink val]; exact hc
      cases hr : recur (insertA a var val) with
      | error e => rw [hr] at h; exact absurd h (by simp)
      | ok p =>
        obtain ⟨r, a2⟩ := p
        rw [hr] at h
        cases r with
        | none =>
          dsimp only at h
          by_cases hE : cw.vars.isEmpty
          · rw [if_pos hE] at h; exact absurd h (by simp)
          · rw [if_neg hE] at h; exact absurd h (by simp)
        | some m' =>
          dsimp only at h
          by_cases hm : assignment_complete cw m'
          · rw [if_pos hm] at h
            obtain ⟨hm', _⟩ : some m' = some m ∧ a2 = s := by simpa using h
            injection hm' with hm'
            exact hm' ▸ hrecS _ _ _ hc' hr
          · exact absurd (hrecC _ _ _ hr) hm
    · rw [if_neg hc] at h
      refine ih a (insertA copyA var val) m s (fun val' => ?_) h
      rw [insertA_insertA, hlink val']

/-- Any assignment returned by `backtrack` from a consistent start is
consistent. -/
theorem backtrackF_some_consistent (cw : Crossword) (d : Domains) :
    ∀ (fuel : Nat) (a m s : Assn), consistent cw a = true →
      backtrackF cw d fuel a = .ok (some m, s) → consistent cw m = true := by
  intro fuel
  induction fuel with
  | zero => intro a m s _ h; simp [backtrackF] at h
  | succ fuel ih =>
    intro a m s ha h
    simp only [backtrackF] at h
    by_cases hcomp : assignment_complete cw a
    · rw [if_pos hcomp] at h
      obtain ⟨hm, _⟩ : some a = some m ∧ a = s := by simpa using h
      injection hm with hm
      exact hm ▸ ha
    · rw [if_neg hcomp] at h
      cases hsel : select_unassigned_variable cw a d with
      | none => rw [hsel] at h; exact absurd h (by simp)
      | some var =>
        rw [hsel] at h
        dsimp only at h
        cases hord : order_domain_values cw var a d with
        | none => rw [hord] at h; exact absurd h (by simp)
        | some vals =>
          rw [hord] at h
          dsimp only at h
          exact goLoop_some_consistent cw _ var
            (fun a' m' s' h' => backtrackF_some_complete cw d fuel a' m' s' h')
            (fun a' m' s' ha' h' => ih a' m' s' ha' h')
            vals a a m s (fun _ => rfl) h

/-- Every arc produced by `arcs_helper` starts at a puzzle variable. -/
theorem arcs_helper_fst {cw : Crossword} {p : Variable × Variable}
    (h : p ∈ arcs_helper cw) : p.1 ∈ cw.vars := by
  unfold arcs_helper at h
  rw [List.mem_flatten] at h
  obtain ⟨l, hl, hp⟩ := h
  rw [List.mem_map] at hl
  obtain ⟨v, hv, rfl⟩ := hl
  rw [List.mem_map] at hp
  obtain ⟨n, _, rfl⟩ := hp
  exact hv

/-- Arcs added by the re-enqueue step either were already queued or start
at the revised variable `x`. -/
theorem enqueueNeighbors_mem {cw : Crossword} {x y : Variable}
    {q : List (Variable × Variable)} {p : Variable × Variable}
    (h : p ∈ enqueueNeighbors cw x y q) : p ∈ q ∨ p.1 = x := by
  unfold enqueueNeighbors at h
  generalize (neighbors cw x).filter (fun n => n ≠ y) = l at h
  induction l generalizing q with
  | nil => exact Or.inl h
  | cons n t ih =>
    rw [List.foldl_cons] at h
    rcases ih h with hq | hx
    · by_cases hmem : (x, n) ∈ q
      · rw [if_pos hmem] at hq
        exact Or.inl hq
      · rw [if_neg hmem] at hq
        rcases List.mem_append.mp hq with hq' | hq'
        · exact Or.inl hq'
        · right
          rw [List.mem_singleton.mp hq']
    · exact Or.inr hx

/-- If the `ac3` loop returns `False`, some puzzle variable's domain in
the final store is empty (given that all queued arcs start at puzzle
variables, as both seedings of `solve`'s call guarantee). -/
theorem ac3go_false_empty {cw : Crossword} :
    ∀ {fuel : Nat} {q : List (Variable × Variable)} {d d' : Domains},
      (∀ p, p ∈ q → p.1 ∈ cw.vars) →
      ac3go cw fuel q d = some (false, d') →
      ∃ x, x ∈ cw.vars ∧ d' x = [] := by
  intro fuel
  induction fuel with
  | zero => intro q d d' _ h; simp [ac3go] at h
  | succ fuel ih =>
    intro q d d' hq h
    match q with
    | [] => simp [ac3go] at h
    | (x, y) :: rest =>
      simp only [ac3go] at h
      by_cases hrev : (revise cw x y d).1
      · rw [if_pos hrev] at h
        by_cases hemp : ((revise cw x y d).2 x).isEmpty
        · rw [if_pos hemp] at h
          obtain ⟨_, hd⟩ : false = false ∧ (revise cw x y d).2 = d' := by simpa using h
          refine ⟨x, hq (x, y) (List.mem_cons_self _ _), ?_⟩
          rw [← hd]
          exact List.isEmpty_iff.mp hemp
        · rw [if_neg hemp] at h
          refine ih (fun p hp => ?_) h
          rcases enqueueNeighbors_mem hp with hp' | hp'
          · exact hq p (List.mem_cons_of_mem _ hp')
          · rw [hp']
            exact hq (x, y) (List.mem_cons_self _ _)
      · rw [if_neg hrev] at h
        exact ih (fun p hp => hq p (List.mem_cons_of_mem _ hp)) h

/-- On the empty assignment, if some puzzle variable's domain is empty,
the MRV heuristic selects a variable whose domain is empty (the minimal
domain size is then zero). -/
theorem select_empty_domain {cw : Crossword} {d : Domains} {x : Variable}
    (hx : x ∈ cw.vars) (hempty : d x = []) :
    ∃ h, select_unassigned_variable cw [] d = some h ∧ d h = [] := by
  have hun : cw.vars.filter (fun v => (lookupA [] v).isNone) = cw.vars :=
    List.filter_eq_self.mpr (fun v _ => rfl)
  haveI : IsTotal Variable (fun u v => (d u).length ≤ (d v).length) :=
    ⟨fun a b => Nat.le_total _ _⟩
  haveI : IsTrans Variable (fun u v => (d u).length ≤ (d v).length) :=
    ⟨fun a b c hab hbc => Nat.le_trans hab hbc⟩
  have hperm := List.perm_insertionSort
    (fun u v => (d u).length ≤ (d v).length) cw.vars
  have hsorted := List.sorted_insertionSort
    (fun u v => (d u).length ≤ (d v).length) cw.vars
  have hmem : x ∈ cw.vars.insertionSort (fun u v => (d u).length ≤ (d v).length) :=
    hperm.mem_iff.mpr hx
  cases hsort : cw.vars.insertionSort (fun u v => (d u).length ≤ (d v).length) with
  | nil => rw [hsort] at hmem; simp at hmem
  | cons m0 t =>
    rw [hsort] at hmem hsorted
    have hm0 : (d m0).length = 0 := by
      rcases List.mem_cons.mp hmem with rfl | hmem'
      · rw [hempty]; rfl
      · have hle : (d m0).length ≤ (d x).length :=
          (List.sorted_cons.mp hsorted).1 x hmem'
        rw [hempty] at hle
        exact Nat.le_zero.mp hle
    have hm0mem : m0 ∈ (m0 :: t).filter (fun v => (d v).length = (d m0).length) :=
      List.mem_filter.mpr ⟨List.mem_cons_self _ _, by simp⟩
    have hperm2 := List.perm_insertionSort
      (fun u v => (neighbors cw u).length ≤ (neighbors cw v).length)
      ((m0 :: t).filter (fun v => (d v).length = (d m0).length))
    cases hsort2 : ((m0 :: t).filter
        (fun v => (d v).length = (d m0).length)).insertionSort
        (fun u v => (neighbors cw u).length ≤ (neighbors cw v).length) with
    | nil =>
      rw [hsort2] at hperm2
      rw [← hperm2.nil_eq] at hm0mem
      simp at hm0mem
    | cons h0 t2 =>
      refine ⟨h0, ?_, ?_⟩
      · unfold select_unassigned_variable
        dsimp only
        rw [hun, hsort]
        dsimp only
        rw [hsort2]
      · have hh0 : h0 ∈ (m0 :: t).filter (fun v => (d v).length = (d m0).length) := by
          rw [hsort2] at hperm2
          exact hperm2.mem_iff.mp (List.mem_cons_self _ _)
        have := of_decide_eq_true (List.mem_filter.mp hh0).2
        rw [hm0] at this
        exact List.length_eq_zero.mp this

/-- Folding an accumulating addition equals adding the mapped sum. -/
theorem foldl_add_eq_sum {α : Type} (f : α → Nat) :
    ∀ (l : List α) (acc : Nat),
      l.foldl (fun acc x => acc + f x) acc = acc + (l.map f).sum := by
  intro l
  induction l with
  | nil => intro acc; simp
  | cons x t ih =>
    intro acc
    simp only [List.foldl_cons, List.map_cons, List.sum_cons, ih, Nat.add_assoc]

/-- `elimCount` is the total number of values a candidate would rule out:
the sum, over unassigned neighbours, of the conflicting values in that
neighbour's domain. -/
theorem elimCount_eq_sum (cw : Crossword) (var : Variable) (a : Assn)
    (d : Domains) (xv : Word) :
    elimCount cw var a d xv =
      (((neighbors cw var).filter (fun n => (lookupA a n).isNone)).map
        (fun n => match cw.overlaps var n with
          | none => 0
          | some (i, j) => ((d n).filter (fun yv => conflictsAt i j xv yv)).length)).sum := by
  unfold elimCount
  have hfun : (fun (acc : Nat) (n : Variable) =>
      match cw.overlaps var n with
      | none => acc
      | some (i, j) => acc + ((d n).filter (fun yv => conflictsAt i j xv yv)).length)
      = (fun (acc : Nat) (n : Variable) => acc +
          match cw.overlaps var n with
          | none => 0
          | some (i, j) => ((d n).filter (fun yv => conflictsAt i j xv yv)).length) := by
    funext acc n
    cases cw.overlaps var n with
    | none => simp
    | some p => obtain ⟨i, j⟩ := p; rfl
  rw [hfun, foldl_add_eq_sum]
  simp

/-! ## Claim theorems -/

/-- Claim C8: after `enforce_node_consistency` every word in every
variable's domain has the variable's length; `revise` and any completed
`ac3` loop only remove words, so the invariant persists: when the store
fed to `ac3` is the node-consistent one, every word surviving `ac3`
still has its variable's length. -/
theorem domain_length_invariant (cw : Crossword) (d0 d1 : Domains)
    (x y v : Variable) (w : Word) (fuel : Nat) (q : List (Variable × Variable))
    (b : Bool) (d2 : Domains)
    (hv : v ∈ cw.vars)
    (hac : ac3go cw fuel q d1 = some (b, d2)) :
    (w ∈ enforce_node_consistency cw d0 v → w.length = v.length)
    ∧ (w ∈ (revise cw x y d1).2 v → w ∈ d1 v)
    ∧ (w ∈ d2 v → w ∈ d1 v)
    ∧ (d1 = enforce_node_consistency cw d0 → w ∈ d2 v → w.length = v.length) := by
  have henf : w ∈ enforce_node_consistency cw d0 v → w.length = v.length := by
    intro hw
    unfold enforce_node_consistency at hw
    rw [if_pos hv] at hw
    exact of_decide_eq_true (List.mem_filter.mp hw).2
  refine ⟨henf, fun h => revise_mem h, fun h => ac3go_mem hac h, fun he hw => ?_⟩
  exact henf (he ▸ ac3go_mem hac hw)

/-- Claim C8 witness: the invariant instantiated on the one-slot puzzle
`cwW` with the trivial `ac3` run on the empty queue. -/
theorem domain_length_invariant_witness :
    (['a'] ∈ enforce_node_consistency cwW (initialDomains cwW) vW → (['a'] : Word).length = vW.length)
    ∧ (['a'] ∈ (revise cwW vW vW (enforce_node_consistency cwW (initialDomains cwW))).2 vW →
        ['a'] ∈ enforce_node_consistency cwW (initialDomains cwW) vW)
    ∧ (['a'] ∈ enforce_node_consistency cwW (initialDomains cwW) vW →
        ['a'] ∈ enforce_node_consistency cwW (initialDomains cwW) vW)
    ∧ (enforce_node_consistency cwW (initialDomains cwW) = enforce_node_consistency cwW (initialDomains cwW) →
        ['a'] ∈ enforce_node_consistency cwW (initialDomains cwW) vW → (['a'] : Word).length = vW.length) :=
  domain_length_invariant cwW (initialDomains cwW)
    (enforce_node_consistency cwW (initialDomains cwW)) vW vW vW ['a'] 5 [] true
    (enforce_node_consistency cwW (initialDomains cwW)) (by decide) rfl

/-- Claim C1: search soundness.  On a puzzle whose overlap indices are in
range (the spec's MalformedOverlap precondition), any assignment that
`solve` returns assigns a word to every variable, the assigned words are
pairwise distinct, each assigned word's length equals its variable's
length, and for every pair of variables with an overlap `(i, j)` the
assigned words agree at those indices (which are in range). -/
theorem search_soundness (cw : Crossword) (bfuel afuel : Nat) (m : Assn)
    (hin : ∀ x y i j, cw.overlaps x y = some (i, j) → i < x.length ∧ j < y.length)
    (hs : solve cw bfuel afuel = some (Except.ok (some m))) :
    (∀ v, v ∈ cw.vars → ∃ w, lookupA m v = some w)
    ∧ (m.map Prod.snd).Nodup
    ∧ (∀ p, p ∈ m → (p.2 : Word).length = p.1.length)
    ∧ (∀ x y wx wy i j, lookupA m x = some wx → lookupA m y = some wy →
        cw.overlaps x y = some (i, j) → x ≠ y →
        wx.getD i '?' = wy.getD j '?' ∧ i < wx.length ∧ j < wy.length) := by
  unfold solve at hs
  cases hac : ac3 cw afuel none (enforce_node_consistency cw (initialDomains cw)) with
  | none => rw [hac] at hs; exact absurd hs (by simp)
  | some p =>
    rw [hac] at hs
    have hb' : (backtrackF cw p.2 bfuel []).map Prod.fst = Except.ok (some m) := by
      simpa using hs
    cases hb : backtrackF cw p.2 bfuel [] with
    | error e => rw [hb] at hb'; exact absurd hb' (by simp [Except.map])
    | ok r =>
      obtain ⟨ro, s⟩ := r
      rw [hb] at hb'
      have hro : ro = some m := by simpa [Except.map] using hb'
      subst hro
      have hcomp := backtrackF_some_complete cw p.2 bfuel [] m s hb
      have hcons := backtrackF_some_consistent cw p.2 bfuel [] m s rfl hb
      unfold consistent at hcons
      rw [Bool.and_eq_true, Bool.and_eq_true] at hcons
      obtain ⟨⟨h1, h2⟩, h3⟩ := hcons
      have hlen : ∀ q, q ∈ m → (q.2 : Word).length = q.1.length := by
        intro q hq
        exact (of_decide_eq_true (List.all_eq_true.mp h2 q hq)).symm
      refine ⟨?_, of_decide_eq_true h1, hlen, ?_⟩
      · intro v hv
        have := List.all_eq_true.mp hcomp v hv
        exact Option.isSome_iff_exists.mp this
      · intro x y wx wy i j hx hy hov hxy
        have hxm := lookupA_mem hx
        have hym := lookupA_mem hy
        have hall := List.all_eq_true.mp (List.all_eq_true.mp h3 (x, wx) hxm) (y, wy) hym
        rw [Bool.or_eq_true] at hall
        rcases hall with heq | hmatch
        · exact absurd (of_decide_eq_true heq) hxy
        · rw [hov] at hmatch
          refine ⟨of_decide_eq_true hmatch, ?_, ?_⟩
          · rw [hlen (x, wx) hxm]; exact (hin x y i j hov).1
          · rw [hlen (y, wy) hym]; exact (hin x y i j hov).2

/-- Claim C1 witness: the one-slot puzzle `cwW` is solved with
`vW ↦ "a"`, and the soundness conclusions hold for that run. -/
theorem search_soundness_witness :
    (∀ v, v ∈ cwW.vars → ∃ w, lookupA [(vW, ['a'])] v = some w)
    ∧ (([(vW, ['a'])] : Assn).map Prod.snd).Nodup
    ∧ (∀ p, p ∈ ([(vW, ['a'])] : Assn) → (p.2 : Word).length = p.1.length)
    ∧ (∀ x y wx wy i j, lookupA [(vW, ['a'])] x = some wx →
        lookupA [(vW, ['a'])] y = some wy →
        cwW.overlaps x y = some (i, j) → x ≠ y →
        wx.getD i '?' = wy.getD j '?' ∧ i < wx.length ∧ j < wy.length) :=
  search_soundness cwW 5 10 [(vW, ['a'])]
    (fun _ _ _ _ h => Option.noConfusion h) rfl

/-- Claim C10: seeding `ac3` with the empty arc list is the same as
seeding it with `None` — `if not arcs:` replaces both by the full arc
set, so the propagation, final domains and return value coincide. -/
theorem ac3_empty_arcs_eq_none (cw : Crossword) (fuel : Nat) (d : Domains) :
    ac3 cw fuel (some []) d = ac3 cw fuel none d := rfl

/-- Claim C3 (refuting evidence): on `cwC3` the AC-3 phase of `solve`
empties a domain and returns `False`, yet `solve` still enters the
backtracking search — `backtrack` is invoked once, not zero times. -/
theorem solve_enters_search_after_ac3_failure :
    (ac3 cwC3 50 none (enforce_node_consistency cwC3 (initialDomains cwC3))).map Prod.fst
      = some false
    ∧ solveCalls cwC3 12 50 = some 1 :=
  ⟨rfl, rfl⟩

/-- Claim C3 amended: `solve` ignores `ac3`'s boolean result and always
invokes `backtrack`; when AC-3 has failed (a domain emptied), the
invoked search nevertheless returns the no-solution result at once —
the emptied-domain variable is selected first by MRV and offers no
candidates — so the caller still receives `None`, after exactly one
`backtrack` invocation. -/
theorem solve_after_ac3_failure (cw : Crossword) (bfuel afuel : Nat)
    (hfail : (ac3 cw afuel none
        (enforce_node_consistency cw (initialDomains cw))).map Prod.fst = some false) :
    solve cw (bfuel + 1) afuel = some (Except.ok none)
    ∧ solveCalls cw (bfuel + 1) afuel = some 1 := by
  cases hac : ac3 cw afuel none (enforce_node_consistency cw (initialDomains cw)) with
  | none => rw [hac] at hfail; exact absurd hfail (by simp)
  | some p =>
    obtain ⟨b, d2⟩ := p
    rw [hac] at hfail
    have hb : b = false := by simpa using hfail
    subst hb
    have hrun : ac3go cw afuel (arcs_helper cw)
        (enforce_node_consistency cw (initialDomains cw)) = some (false, d2) := by
      simpa [ac3] using hac
    obtain ⟨x, hx, hempty⟩ :=
      ac3go_false_empty (fun q hq => arcs_helper_fst hq) hrun
    obtain ⟨h0, hsel, hh0⟩ := select_empty_domain hx hempty
    have hninc : ¬ assignment_complete cw [] = true := by
      intro hall
      have := List.all_eq_true.mp hall x hx
      simp [lookupA] at this
    have hord : order_domain_values cw h0 [] d2 = some [] := by
      simp [order_domain_values, lookupA, hh0, List.insertionSort]
    have hbt : backtrackF cw d2 (bfuel + 1) [] = .ok (none, []) := by
      simp only [backtrackF]
      rw [if_neg hninc, hsel]
      dsimp only
      rw [hord]
      rfl
    have hbc : backtrackCalls cw d2 (bfuel + 1) [] = 1 := by
      simp only [backtrackCalls]
      rw [if_neg hninc, hsel]
      dsimp only
      rw [hord]
      rfl
    constructor
    · unfold solve
      rw [hac]
      simp [hbt, Except.map]
    · unfold solveCalls
      rw [hac]
      simp [hbc]

/-- Claim C3 amended, witness: on `cwC3` (where AC-3 fails), `solve`
returns the no-solution result after one `backtrack` invocation. -/
theorem solve_after_ac3_failure_witness :
    solve cwC3 12 50 = some (Except.ok none) ∧ solveCalls cwC3 12 50 = some 1 :=
  solve_after_ac3_failure cwC3 11 50 rfl

/-- Claim C5 (refuting evidence): on the path `z — x — y` with store
`dC6`, `revise(x, y)` shrinks `x`'s domain to a non-empty set and `z` is
a neighbour of `x` other than `y`; the loop then enqueues the arc
`(x, z)` — not `(z, x)` as the claim states — onto the pending queue
`[(y, x)]`. -/
theorem ac3_enqueues_outgoing_arcs :
    (revise cwC5 xC5 yC5 dC6).1 = true
    ∧ ((revise cwC5 xC5 yC5 dC6).2 xC5).isEmpty = false
    ∧ zC5 ∈ neighbors cwC5 xC5
    ∧ zC5 ≠ yC5
    ∧ enqueueNeighbors cwC5 xC5 yC5 [(yC5, xC5)] = [(yC5, xC5), (xC5, zC5)]
    ∧ (zC5, xC5) ∉ enqueueNeighbors cwC5 xC5 yC5 [(yC5, xC5)] := by decide

/-- Claim C6 (refuting evidence): on `cwC5` with store `dC6`, `ac3`
seeded with the full arc set returns `True`, yet the resulting store is
not arc consistent: re-running `revise(z, x)` still reports a change
(the wrong re-enqueue direction left `z`'s word `"cb"` unsupported). -/
theorem ac3_not_a_fixed_point :
    (ac3 cwC5 100 none dC6).map Prod.fst = some true
    ∧ (ac3 cwC5 100 none dC6).map (fun p => (revise cwC5 zC5 xC5 p.2).1) = some true :=
  ⟨rfl, rfl⟩

/-- Claim C7 (refuting evidence): with `aC7` and `bC7` unassigned and
tied on minimal domain size while `aC7` has strictly more neighbours,
`select_unassigned_variable` returns `bC7`, the tied variable with the
*fewest* neighbours (the code sorts degrees ascending and takes the
first). -/
theorem select_picks_lowest_degree :
    select_unassigned_variable cwC7 [] dC7 = some bC7
    ∧ (lookupA [] aC7).isNone = true
    ∧ aC7 ∈ cwC7.vars
    ∧ (dC7 aC7).length = (dC7 bC7).length
    ∧ (dC7 aC7).length ≤ (dC7 cC7).length
    ∧ (neighbors cwC7 bC7).length < (neighbors cwC7 aC7).length := by decide

/-- Claim C2 (refuting evidence): on the two-crossing-slots puzzle
`cwC2` (single word `"a"`), AC-3 succeeds, the search extends the empty
assignment with `x ↦ "a"`, the recursive call dead-ends — and instead of
undoing the extension and trying the next candidate, the code feeds the
`None` result to `assignment_complete`, whose `var not in None` raises
`TypeError` (here: `Except.error ()`). -/
theorem backtrack_crashes_on_branch_failure :
    (ac3 cwC2 20 none (enforce_node_consistency cwC2 (initialDomains cwC2))).map Prod.fst
      = some true
    ∧ solve cwC2 10 20 = some (Except.error ()) :=
  ⟨rfl, rfl⟩

/-- Claim C4 (refuting evidence): the three-slot puzzle `cwC4` has a
complete satisfying assignment inside the original word list (x=ab,
y=aa, z=ba), yet `solve` crashes (`TypeError`, modelled `Except.error`)
when its first branch dead-ends, instead of returning a solution. -/
theorem solve_crashes_on_satisfiable_puzzle :
    assignment_complete cwC4 [(xC4, ['a', 'b']), (yC4, ['a', 'a']), (zC4, ['b', 'a'])] = true
    ∧ consistent cwC4 [(xC4, ['a', 'b']), (yC4, ['a', 'a']), (zC4, ['b', 'a'])] = true
    ∧ ([(xC4, ['a', 'b']), (yC4, ['a', 'a']), (zC4, ['b', 'a'])] : Assn).all
        (fun p => p.2 ∈ cwC4.words) = true
    ∧ solve cwC4 10 50 = some (Except.error ()) := by
  refine ⟨rfl, by decide, rfl, rfl⟩

/-- Claim C9: for an unassigned variable, `order_domain_values` returns
exactly the words of its current domain (a permutation), in ascending
order of the number of values each word would eliminate from the domains
of the not-yet-assigned neighbours, a value being eliminated exactly
when it conflicts with the candidate at the overlap indices. -/
theorem order_domain_values_lcv (cw : Crossword) (var : Variable) (a : Assn)
    (d : Domains) (hvar : lookupA a var = none) :
    ∃ l, order_domain_values cw var a d = some l
      ∧ l.Perm (d var)
      ∧ l.Pairwise (fun w1 w2 => elimCount cw var a d w1 ≤ elimCount cw var a d w2)
      ∧ ∀ w, elimCount cw var a d w =
          (((neighbors cw var).filter (fun n => (lookupA a n).isNone)).map
            (fun n => match cw.overlaps var n with
              | none => 0
              | some (i, j) =>
                ((d n).filter (fun yv => conflictsAt i j w yv)).length)).sum := by
  refine ⟨(d var).insertionSort
      (fun w1 w2 => elimCount cw var a d w1 ≤ elimCount cw var a d w2),
    ?_, ?_, ?_, fun w => elimCount_eq_sum cw var a d w⟩
  · unfold order_domain_values
    rw [hvar]
    rfl
  · exact List.perm_insertionSort _ _
  · haveI : IsTotal Word (fun w1 w2 => elimCount cw var a d w1 ≤ elimCount cw var a d w2) :=
      ⟨fun w1 w2 => Nat.le_total _ _⟩
    haveI : IsTrans Word (fun w1 w2 => elimCount cw var a d w1 ≤ elimCount cw var a d w2) :=
      ⟨fun w1 w2 w3 h12 h23 => Nat.le_trans h12 h23⟩
    exact List.sorted_insertionSort _ _

/-- Claim C9 witness: the LCV ordering property instantiated on the
two-slot puzzle `cwC9` with store `dC9` and the empty assignment. -/
theorem order_domain_values_lcv_witness :
    ∃ l, order_domain_values cwC9 pC9 [] dC9 = some l
      ∧ l.Perm (dC9 pC9)
      ∧ l.Pairwise (fun w1 w2 => elimCount cwC9 pC9 [] dC9 w1 ≤ elimCount cwC9 pC9 [] dC9 w2)
      ∧ ∀ w, elimCount cwC9 pC9 [] dC9 w =
          (((neighbors cwC9 pC9).filter (fun n => (lookupA [] n).isNone)).map
            (fun n => match cwC9.overlaps pC9 n with
              | none => 0
              | some (i, j) =>
                ((dC9 n).filter (fun yv => conflictsAt i j w yv)).length)).sum :=
  order_domain_values_lcv cwC9 pC9 [] dC9 rfl


end Crossgen

